import Mathlib

/-!
Verification of the rumpus skylight-polarization orientation estimator.

Each section shallowly embeds one part of the Rust source and proves the
stated properties about it.  Machine integers are modelled by `Nat`, byte
values by `Nat`, and `f64` values by `Rat` where the code only performs
field operations and comparisons, and by `Real` where trigonometric
functions are involved.
-/

namespace Rumpus

/-! ## Demosaic: `IntensityImage::from_bytes` (src/image.rs) -/

/-- Error type of src/error.rs. -/
inductive RError where
  | oddImgDim (dims : Nat × Nat)
  | emptyRange
  | nonFinite
deriving DecidableEq

/-- Metapixel produced by the demosaic, src/image.rs `IntensityPixel`.
The four intensities are stored in 0, 45, 90, 135 order. -/
structure IntensityPixel where
  row : Nat
  col : Nat
  i000 : Nat
  i045 : Nat
  i090 : Nat
  i135 : Nat
deriving DecidableEq, Inhabited

/-- Image of metapixels, src/image.rs `IntensityImage`. -/
structure IntensityImage where
  metapixels : List IntensityPixel
  width : Nat
  height : Nat
deriving DecidableEq

/-- Rust `u16::checked_div`: fails exactly when the divisor is zero. -/
def checkedDiv (a b : Nat) : Option Nat :=
  if b = 0 then none else some (a / b)

/-- Raw sample of a row-major byte buffer of row length `w` at column `col`,
row `row`. -/
def sampleAt (bytes : List Nat) (w col row : Nat) : Nat :=
  bytes.getD (col + row * w) 0

/-- Body of the demosaic map in `IntensityImage::from_bytes`: the metapixel
at metapixel coordinates `(x, y)`, with the index arithmetic of
src/image.rs lines 104-118. -/
def mkMetapixel (width : Nat) (bytes : List Nat) (x y : Nat) : IntensityPixel :=
  let i000 := (x * 2 + 1) + (y * 2 + 1) * width
  let i045 := (x * 2) + (y * 2 + 1) * width
  let i090 := (x * 2) + (y * 2) * width
  let i135 := (x * 2 + 1) + (y * 2) * width
  { row := y, col := x
    i000 := bytes.getD i000 0
    i045 := bytes.getD i045 0
    i090 := bytes.getD i090 0
    i135 := bytes.getD i135 0 }

/-- Row-major list of metapixel coordinates `(x, y)`,
src/image.rs lines 97-99. -/
def metaCoords (mw mh : Nat) : List (Nat × Nat) :=
  ((List.range mh).map (fun y => (List.range mw).map (fun x => (x, y)))).flatten

/-- `IntensityImage::from_bytes` (src/image.rs lines 89-128).  Note that the
source uses `checked_div(2)`, which only fails for a zero divisor, so the
`OddImgDim` branches are unreachable. -/
def fromBytes (width height : Nat) (bytes : List Nat) :
    Except RError IntensityImage :=
  match checkedDiv width 2 with
  | none => .error (.oddImgDim (width, height))
  | some metaWidth =>
    match checkedDiv height 2 with
    | none => .error (.oddImgDim (width, height))
    | some metaHeight =>
      .ok { metapixels :=
              (metaCoords metaWidth metaHeight).map
                (fun c => mkMetapixel width bytes c.1 c.2)
            width := metaWidth
            height := metaHeight }

/-! Indexing lemmas for the row-major coordinate list. -/

theorem metaCoords_length (mw mh : Nat) :
    (metaCoords mw mh).length = mh * mw := by
  induction mh with
  | zero => simp [metaCoords]
  | succ n ih =>
    simp only [metaCoords, List.range_succ, List.map_append, List.flatten_append] at *
    simp only [List.length_append, ih, List.map_cons, List.map_nil,
      List.flatten_cons, List.flatten_nil, List.append_nil, List.length_map,
      List.length_range]
    ring

theorem metaCoords_getElem? (mw mh x y : Nat) (hx : x < mw) (hy : y < mh) :
    (metaCoords mw mh)[y * mw + x]? = some (x, y) := by
  induction mh with
  | zero => omega
  | succ n ih =>
    have hsplit : metaCoords mw (n + 1) = metaCoords mw n ++
        (List.range mw).map (fun x => (x, n)) := by
      simp [metaCoords, List.range_succ]
    rcases Nat.lt_succ_iff_lt_or_eq.mp hy with h | h
    · have hlen : y * mw + x < (metaCoords mw n).length := by
        rw [metaCoords_length]
        calc y * mw + x < y * mw + mw := by omega
          _ = (y + 1) * mw := by ring
          _ ≤ n * mw := Nat.mul_le_mul_right mw h
      rw [hsplit, List.getElem?_append_left hlen]
      exact ih h
    · subst h
      have hlen : (metaCoords mw y).length = y * mw := by
        rw [metaCoords_length]
      rw [hsplit, List.getElem?_append_right (by omega), hlen,
        Nat.add_sub_cancel_left]
      simp [List.getElem?_range hx]

/-- Closed form of `fromBytes`: the `OddImgDim` branches are dead because
`checked_div(2)` cannot fail. -/
theorem fromBytes_eq (width height : Nat) (bytes : List Nat) :
    fromBytes width height bytes =
      .ok { metapixels :=
              (metaCoords (width / 2) (height / 2)).map
                (fun c => mkMetapixel width bytes c.1 c.2)
            width := width / 2
            height := height / 2 } := by
  simp [fromBytes, checkedDiv]

/-- Metapixel list entry at row-major index `y * mw + x`. -/
theorem fromBytes_metapixel (width height : Nat) (bytes : List Nat)
    (img : IntensityImage) (h : fromBytes width height bytes = .ok img)
    (x y : Nat) (hx : x < img.width) (hy : y < img.height) :
    img.metapixels.getD (y * img.width + x) default =
      mkMetapixel width bytes x y := by
  rw [fromBytes_eq] at h
  injection h with h
  subst h
  simp only at hx hy ⊢
  rw [List.getD_eq_getElem?_getD, List.getElem?_map,
    metaCoords_getElem? _ _ x y hx hy]
  rfl

/-- C2, evaluation at the failing input: `from_bytes` with odd width 3
succeeds with a 1-by-1 metapixel grid instead of returning the
`OddImgDim` error, because `checked_div(2)` only fails for a zero
divisor.  The claim (and spec section 4.3) require an `InvalidDimensions`
error for odd dimensions. -/
theorem fromBytes_odd_width_no_error :
    fromBytes 3 2 [1, 2, 3, 4, 5, 6] =
      .ok { metapixels := [⟨0, 0, 5, 4, 1, 2⟩], width := 1, height := 1 } := by
  rfl

/-- C1, counterexample: for the 2-by-2 image with bytes 10, 20, 30, 40 the
decoded metapixel at (0, 0) has 135-degree channel `bytes[1] = 20`, while
the claim says the raw sample at position (2*0, 2*0), namely
`bytes[0] = 10`, is the 135-degree channel. -/
theorem fromBytes_claimed_mosaic_false :
    fromBytes 2 2 [10, 20, 30, 40] =
      .ok { metapixels := [⟨0, 0, 40, 30, 10, 20⟩], width := 1, height := 1 } ∧
    sampleAt [10, 20, 30, 40] 2 (2 * 0) (2 * 0) ≠
      (IntensityPixel.mk 0 0 40 30 10 20).i135 :=
  ⟨by rfl, by decide⟩

/-- C1, amended: for even dimensions `2*mw` by `2*mh` and a byte buffer
covering the full image, the metapixel at `(x, y)` takes the raw sample at
`(2x, 2y)` as its 90-degree channel, `(2x+1, 2y)` as its 135-degree
channel, `(2x, 2y+1)` as its 45-degree channel and `(2x+1, 2y+1)` as its
0-degree channel, with exactly the index arithmetic of the source. -/
theorem fromBytes_mosaic (mw mh x y : Nat) (bytes : List Nat)
    (hx : x < mw) (hy : y < mh)
    (hlen : bytes.length = (2 * mw) * (2 * mh)) :
    ∀ img, fromBytes (2 * mw) (2 * mh) bytes = .ok img →
      (img.metapixels.getD (y * mw + x) default).row = y ∧
      (img.metapixels.getD (y * mw + x) default).col = x ∧
      (img.metapixels.getD (y * mw + x) default).i090 =
        sampleAt bytes (2 * mw) (2 * x) (2 * y) ∧
      (img.metapixels.getD (y * mw + x) default).i135 =
        sampleAt bytes (2 * mw) (2 * x + 1) (2 * y) ∧
      (img.metapixels.getD (y * mw + x) default).i045 =
        sampleAt bytes (2 * mw) (2 * x) (2 * y + 1) ∧
      (img.metapixels.getD (y * mw + x) default).i000 =
        sampleAt bytes (2 * mw) (2 * x + 1) (2 * y + 1) := by
  intro img himg
  have hw : img.width = mw := by
    rw [fromBytes_eq] at himg
    injection himg with himg
    subst himg
    show 2 * mw / 2 = mw
    omega
  have hh : img.height = mh := by
    rw [fromBytes_eq] at himg
    injection himg with himg
    subst himg
    show 2 * mh / 2 = mh
    omega
  have hmp := fromBytes_metapixel (2 * mw) (2 * mh) bytes img himg x y
    (by omega) (by omega)
  rw [hw] at hmp
  rw [hmp]
  simp only [mkMetapixel, sampleAt]
  refine ⟨trivial, trivial, ?_, ?_, ?_, ?_⟩ <;> (congr 1 <;> ring)

/-- Witness for C1 amended at a concrete 2-by-2 image. -/
theorem fromBytes_mosaic_witness :
    ((IntensityImage.mk [⟨0, 0, 40, 30, 10, 20⟩] 1 1).metapixels.getD
        (0 * 1 + 0) default).row = 0 ∧
    ((IntensityImage.mk [⟨0, 0, 40, 30, 10, 20⟩] 1 1).metapixels.getD
        (0 * 1 + 0) default).col = 0 ∧
    ((IntensityImage.mk [⟨0, 0, 40, 30, 10, 20⟩] 1 1).metapixels.getD
        (0 * 1 + 0) default).i090 =
      sampleAt [10, 20, 30, 40] (2 * 1) (2 * 0) (2 * 0) ∧
    ((IntensityImage.mk [⟨0, 0, 40, 30, 10, 20⟩] 1 1).metapixels.getD
        (0 * 1 + 0) default).i135 =
      sampleAt [10, 20, 30, 40] (2 * 1) (2 * 0 + 1) (2 * 0) ∧
    ((IntensityImage.mk [⟨0, 0, 40, 30, 10, 20⟩] 1 1).metapixels.getD
        (0 * 1 + 0) default).i045 =
      sampleAt [10, 20, 30, 40] (2 * 1) (2 * 0) (2 * 0 + 1) ∧
    ((IntensityImage.mk [⟨0, 0, 40, 30, 10, 20⟩] 1 1).metapixels.getD
        (0 * 1 + 0) default).i000 =
      sampleAt [10, 20, 30, 40] (2 * 1) (2 * 0 + 1) (2 * 0 + 1) :=
  fromBytes_mosaic 1 1 0 0 [10, 20, 30, 40] (by decide) (by decide) (by decide)
    (IntensityImage.mk [⟨0, 0, 40, 30, 10, 20⟩] 1 1) (by rfl)

/-! ## Pattern-match estimator: loss and candidate fold
(src/estimator/pattern_match.rs, src/ray.rs, src/state.rs) -/

/-- Roll, pitch, yaw triple of src/state.rs `Pose`. -/
structure Pose where
  roll : Rat
  pitch : Rat
  yaw : Rat
deriving DecidableEq

/-- Wrap of the estimator-generation `Aop::from_deg_wrap` (src/ray.rs lines
59-71), ascending loop: while the angle is negative, add 180. -/
def degWrapUp (a : Rat) : Rat :=
  if a < 0 then degWrapUp (a + 180) else a
termination_by (⌈-a / 180⌉).toNat
decreasing_by
  have h1 : (0 : Rat) < -a / 180 := by
    apply div_pos
    · linarith
    · norm_num
  have h2 : (1 : Int) ≤ ⌈-a / 180⌉ := by
    exact_mod_cast Int.one_le_ceil_iff.mpr h1
  have h3 : ⌈-(a + 180) / 180⌉ = ⌈-a / 180⌉ - 1 := by
    have : -(a + 180) / 180 = -a / 180 - 1 := by ring
    rw [this]
    exact_mod_cast Int.ceil_sub_int (-a / 180) 1
  omega

/-- Wrap of the estimator-generation `Aop::from_deg_wrap` (src/ray.rs lines
59-71), descending loop: while the angle is positive, subtract 180. -/
def degWrapDown (a : Rat) : Rat :=
  if 0 < a then degWrapDown (a - 180) else a
termination_by (⌈a / 180⌉).toNat
decreasing_by
  have h1 : (0 : Rat) < a / 180 := by
    apply div_pos
    · linarith
    · norm_num
  have h2 : (1 : Int) ≤ ⌈a / 180⌉ := by
    exact_mod_cast Int.one_le_ceil_iff.mpr h1
  have h3 : ⌈(a - 180) / 180⌉ = ⌈a / 180⌉ - 1 := by
    have : (a - 180) / 180 = a / 180 - 1 := by ring
    rw [this]
    exact_mod_cast Int.ceil_sub_int (a / 180) 1
  omega

/-- `Aop::from_deg_wrap` of src/ray.rs: angles below -90 are driven up by
180-degree steps until nonnegative, angles above 90 are driven down until
nonpositive. -/
def fromDegWrap (a : Rat) : Rat :=
  if a < -90 then degWrapUp a
  else if 90 < a then degWrapDown a
  else a

/-- Measured ray of the estimator generation (src/ray.rs `Ray`): pixel
location, angle of polarization in degrees, degree of polarization. -/
structure ERay where
  loc : Nat × Nat
  aop : Rat
  dop : Rat
deriving DecidableEq

/-- Loss term for one measured ray against the simulated angle at its
pixel (src/estimator/pattern_match.rs lines 56-61): the wrapped angle
difference squared, divided by the measured degree of polarization.  The
simulated image is abstracted as the function `sim` from pixel location to
the simulated angle of polarization in degrees, standing for
`camera.simulate_pixel(ray.get_loc()).get_aop()`. -/
def lossTerm (sim : Nat × Nat → Rat) (r : ERay) : Rat :=
  (fromDegWrap (r.aop - sim r.loc)) ^ 2 / r.dop

/-- Loss of one candidate pose in `PatternMatch::estimate`
(src/estimator/pattern_match.rs lines 54-63): the loss terms of all
measured rays are summed and the total is divided by the number of rays. -/
def estimateLoss (rays : List ERay) (sim : Nat × Nat → Rat) : Rat :=
  (rays.foldl (fun acc r => acc + lossTerm sim r) 0) / (rays.length : Rat)

/-- Loss formula asserted by the claim (spec section 4.6): the sum of
`Dop_measured * circular_sq_diff(Aop_measured, Aop_simulated)` divided by
the sum of `Dop_measured`.  The exclusion of pixels lacking a value is
vacuous here because `simulate_pixel` yields a value for every pixel. -/
def claimedLossC3 (rays : List ERay) (sim : Nat × Nat → Rat) : Rat :=
  (rays.map (fun r => r.dop * (fromDegWrap (r.aop - sim r.loc)) ^ 2)).sum /
    (rays.map (fun r => r.dop)).sum

/-- Loss formula of the amended claim: the mean over all measured rays of
the squared wrapped angle difference divided by the measured degree of
polarization. -/
def amendedLossC3 (rays : List ERay) (sim : Nat × Nat → Rat) : Rat :=
  (rays.map (fun r => (fromDegWrap (r.aop - sim r.loc)) ^ 2 / r.dop)).sum /
    (rays.length : Rat)

/-- Concrete measured ray list for the C3 counterexample. -/
def raysC3 : List ERay := [⟨(0, 0), 0, 1 / 2⟩]

/-- Concrete simulated image for the C3 counterexample. -/
def simC3 : Nat × Nat → Rat := fun _ => 30

/-- C3, counterexample: for a single measured ray with angle 0 and degree
of polarization 1/2, simulated angle 30, the code computes
`(30^2 / (1/2)) / 1 = 1800` while the claimed DoP-weighted formula gives
`((1/2) * 30^2) / (1/2) = 900`. -/
theorem estimateLoss_ne_claimed :
    estimateLoss raysC3 simC3 = 1800 ∧
    claimedLossC3 raysC3 simC3 = 900 ∧
    (1800 : Rat) ≠ 900 := by
  have hw : fromDegWrap ((0 : Rat) - 30) = -30 := by
    rw [fromDegWrap]
    norm_num
  refine ⟨?_, ?_, by norm_num⟩
  · simp only [estimateLoss, raysC3, simC3, lossTerm, List.foldl, List.length_cons,
      List.length_nil, hw]
    norm_num
  · simp only [claimedLossC3, raysC3, simC3, List.map, List.sum_cons,
      List.sum_nil, hw]
    norm_num

theorem foldl_add_lossTerm (sim : Nat × Nat → Rat) (rays : List ERay) :
    ∀ acc : Rat, rays.foldl (fun acc r => acc + lossTerm sim r) acc =
      acc + (rays.map (lossTerm sim)).sum := by
  induction rays with
  | nil => intro acc; simp
  | cons r rest ih =>
    intro acc
    simp only [List.foldl, List.map, List.sum_cons, ih (acc + lossTerm sim r)]
    ring

/-- C3, amended: the loss that `PatternMatch::estimate` assigns to a
candidate equals the mean over all measured rays of the squared wrapped
angle-of-polarization difference divided by the measured degree of
polarization; the measured degrees of polarization divide instead of
weighting, the normalizer is the ray count, and no pixels are excluded
because the simulation yields a value at every pixel. -/
theorem estimateLoss_eq_amended (rays : List ERay) (sim : Nat × Nat → Rat) :
    estimateLoss rays sim = amendedLossC3 rays sim := by
  unfold estimateLoss amendedLossC3
  rw [foldl_add_lossTerm, zero_add]
  rfl

/-- Candidate with its loss (src/estimator/pattern_match.rs `Estimate`). -/
structure Estimate where
  pose : Pose
  loss : Rat
deriving DecidableEq

/-- `Estimate::min` (src/estimator/pattern_match.rs lines 78-85): the
accumulator survives only when its loss is strictly smaller. -/
def Estimate.min (a b : Estimate) : Estimate :=
  if a.loss < b.loss then a else b

/-- The candidate fold of `PatternMatch::estimate`: Rust
`Iterator::reduce(Estimate::min)`, a left fold of `Estimate::min` seeded
with the first element. -/
def reduceEstimates : List Estimate → Option Estimate
  | [] => none
  | x :: xs => some (xs.foldl Estimate.min x)

/-- C4, counterexample: two candidates with the identical loss 1.  The
fold returns the second candidate, while the claim says the
first-encountered candidate wins a tie. -/
theorem reduceEstimates_tie_last_wins :
    reduceEstimates [⟨⟨0, 0, 0⟩, 1⟩, ⟨⟨1, 0, 0⟩, 1⟩] = some ⟨⟨1, 0, 0⟩, 1⟩ ∧
    (⟨⟨1, 0, 0⟩, 1⟩ : Estimate) ≠ ⟨⟨0, 0, 0⟩, 1⟩ := by
  constructor
  · simp [reduceEstimates, Estimate.min]
  · simp

/-- C4, amended: the candidate fold returns a candidate of minimum loss,
and on a tie of losses the last-encountered candidate wins: the fold
keeps the earlier candidate only when its loss is strictly smaller, so
every candidate after the returned one has strictly larger loss. -/
theorem reduceEstimates_min (l : List Estimate) (e : Estimate)
    (h : reduceEstimates l = some e) :
    e ∈ l ∧ (∀ x ∈ l, e.loss ≤ x.loss) ∧
    ∃ l₁ l₂, l = l₁ ++ e :: l₂ ∧ ∀ x ∈ l₂, e.loss < x.loss := by
  have key : ∀ (xs : List Estimate) (a : Estimate),
      (xs.foldl Estimate.min a) ∈ a :: xs ∧
      (∀ x ∈ a :: xs, (xs.foldl Estimate.min a).loss ≤ x.loss) ∧
      ∃ l₁ l₂, a :: xs = l₁ ++ (xs.foldl Estimate.min a) :: l₂ ∧
        ∀ x ∈ l₂, (xs.foldl Estimate.min a).loss < x.loss := by
    intro xs
    induction xs with
    | nil =>
      intro a
      refine ⟨by simp, by simp, [], [], by simp, by simp⟩
    | cons b rest ih =>
      intro a
      obtain ⟨hmem, hmin, l₁, l₂, hsplit, hgt⟩ := ih (Estimate.min a b)
      rw [Estimate.min] at hmem hmin hsplit hgt
      by_cases hab : a.loss < b.loss
      · rw [if_pos hab] at hmem hmin hsplit hgt
        simp only [List.foldl, Estimate.min, if_pos hab]
        constructor
        · rcases List.mem_cons.mp hmem with h | h
          · exact List.mem_cons.mpr (Or.inl h)
          · exact List.mem_cons.mpr (Or.inr (List.mem_cons.mpr (Or.inr h)))
        constructor
        · intro x hx
          rcases List.mem_cons.mp hx with h | h
          · exact hmin x (by simp [h])
          · rcases List.mem_cons.mp h with h2 | h2
            · calc (rest.foldl Estimate.min a).loss ≤ a.loss :=
                    hmin a (by simp)
                _ ≤ x.loss := by rw [h2]; exact le_of_lt hab
            · exact hmin x (by simp [h2])
        · rcases l₁ with _ | ⟨c, t⟩
          · simp only [List.nil_append] at hsplit
            injection hsplit with he hl₂
            refine ⟨[], b :: rest, by simp [← he], ?_⟩
            intro x hx
            rcases List.mem_cons.mp hx with h | h
            · rw [h, ← he]
              exact hab
            · exact hgt x (hl₂ ▸ h)
          · simp only [List.cons_append] at hsplit
            injection hsplit with hc ht
            refine ⟨a :: b :: t, l₂, ?_, hgt⟩
            rw [List.cons_append, List.cons_append, ← ht]
      · rw [if_neg hab] at hmem hmin hsplit hgt
        simp only [List.foldl, Estimate.min, if_neg hab]
        constructor
        · rcases List.mem_cons.mp hmem with h | h
          · exact List.mem_cons.mpr (Or.inr (List.mem_cons.mpr (Or.inl h)))
          · exact List.mem_cons.mpr (Or.inr (List.mem_cons.mpr (Or.inr h)))
        constructor
        · intro x hx
          rcases List.mem_cons.mp hx with h | h
          · calc (rest.foldl Estimate.min b).loss ≤ b.loss :=
                  hmin b (by simp)
              _ ≤ x.loss := by rw [h]; exact le_of_not_lt hab
          · rcases List.mem_cons.mp h with h2 | h2
            · exact hmin x (by simp [h2])
            · exact hmin x (by simp [h2])
        · exact ⟨a :: l₁, l₂, by rw [hsplit]; simp, hgt⟩
  rcases l with _ | ⟨x, xs⟩
  · simp [reduceEstimates] at h
  · simp only [reduceEstimates, Option.some.injEq] at h
    subst h
    exact key xs x

/-- Witness for C4 amended on a singleton candidate list. -/
theorem reduceEstimates_min_witness :
    (⟨⟨0, 0, 0⟩, 5⟩ : Estimate) ∈ ([⟨⟨0, 0, 0⟩, 5⟩] : List Estimate) ∧
    (∀ x ∈ ([⟨⟨0, 0, 0⟩, 5⟩] : List Estimate),
      (⟨⟨0, 0, 0⟩, 5⟩ : Estimate).loss ≤ x.loss) ∧
    ∃ l₁ l₂, ([⟨⟨0, 0, 0⟩, 5⟩] : List Estimate) =
        l₁ ++ (⟨⟨0, 0, 0⟩, 5⟩ : Estimate) :: l₂ ∧
      ∀ x ∈ l₂, (⟨⟨0, 0, 0⟩, 5⟩ : Estimate).loss < x.loss :=
  reduceEstimates_min [⟨⟨0, 0, 0⟩, 5⟩] ⟨⟨0, 0, 0⟩, 5⟩ (by rfl)

/-! ## Sensor geometry: pixel and sensor coordinate mappings
(src/optic.rs `ImageSensor`) -/

/-- Rust `f64::round`: round half away from zero. -/
def roundHalfAway (q : Rat) : Int :=
  if 0 ≤ q then ⌊q + 1 / 2⌋ else -⌊-q + 1 / 2⌋

/-- Rust `usize::checked_sub`. -/
def checkedSub (a b : Nat) : Option Nat :=
  if b ≤ a then some (a - b) else none

/-- Physical coordinate on the sensor plane (src/optic.rs
`SensorCoordinate`), lengths as rationals. -/
structure SensorCoordinate where
  x : Rat
  y : Rat
deriving DecidableEq

/-- Integer pixel coordinate (src/optic.rs `PixelCoordinate`). -/
structure PixelCoordinate where
  row : Nat
  col : Nat
deriving DecidableEq

/-- Pixel pitch and extents (src/optic.rs `ImageSensor`). -/
structure ImageSensor where
  pixelSize : Rat
  rows : Nat
  cols : Nat
deriving DecidableEq

/-- `ImageSensor::contains_pixel` (src/optic.rs lines 114-117). -/
def ImageSensor.containsPixel (s : ImageSensor) (p : PixelCoordinate) : Bool :=
  decide (p.row < s.rows) && decide (p.col < s.cols)

/-- `ImageSensor::pixel_from_sensor` (src/optic.rs lines 119-136).  The
per-axis index is rounded to the nearest integer and cast by Rust
`as usize`, which saturates negative values to zero; only then is the
bounds check applied. -/
def ImageSensor.pixelFromSensor (s : ImageSensor) (c : SensorCoordinate) :
    Option PixelCoordinate :=
  match checkedSub s.rows 1, checkedSub s.cols 1 with
  | some rowsSub1, some colsSub1 =>
    let result : PixelCoordinate :=
      { row := (roundHalfAway (c.y / s.pixelSize + (rowsSub1 : Rat) / 2)).toNat
        col := (roundHalfAway (c.x / s.pixelSize + (colsSub1 : Rat) / 2)).toNat }
    if s.containsPixel result then some result else none
  | _, _ => none

/-- `ImageSensor::sensor_from_pixel` (src/optic.rs lines 138-149). -/
def ImageSensor.sensorFromPixel (s : ImageSensor) (p : PixelCoordinate) :
    Option SensorCoordinate :=
  if s.containsPixel p then
    some { x := s.pixelSize * ((p.col : Rat) - ((s.cols - 1 : Nat) : Rat) / 2)
           y := s.pixelSize * ((p.row : Rat) - ((s.rows - 1 : Nat) : Rat) / 2) }
  else none

theorem roundHalfAway_natCast (n : Nat) : roundHalfAway (n : Rat) = n := by
  rw [roundHalfAway, if_pos (by positivity)]
  refine Int.floor_eq_iff.mpr ⟨?_, ?_⟩ <;> push_cast <;> norm_num

/-- C6: for every pixel within the sensor extents and positive pixel
pitch, mapping the pixel to its sensor-plane coordinate and back returns
the same pixel. -/
theorem pixel_coordinate_roundtrip (s : ImageSensor) (p : PixelCoordinate)
    (hr : p.row < s.rows) (hc : p.col < s.cols) (hp : 0 < s.pixelSize) :
    (s.sensorFromPixel p).bind s.pixelFromSensor = some p := by
  have hcontains : s.containsPixel p = true := by
    simp [ImageSensor.containsPixel, hr, hc]
  rw [ImageSensor.sensorFromPixel, if_pos hcontains, Option.some_bind]
  have hrows1 : checkedSub s.rows 1 = some (s.rows - 1) := by
    rw [checkedSub, if_pos (by omega)]
  have hcols1 : checkedSub s.cols 1 = some (s.cols - 1) := by
    rw [checkedSub, if_pos (by omega)]
  rw [ImageSensor.pixelFromSensor, hrows1, hcols1]
  have hy : s.pixelSize * ((p.row : Rat) - ((s.rows - 1 : Nat) : Rat) / 2) /
      s.pixelSize + ((s.rows - 1 : Nat) : Rat) / 2 = (p.row : Rat) := by
    field_simp
    ring
  have hx : s.pixelSize * ((p.col : Rat) - ((s.cols - 1 : Nat) : Rat) / 2) /
      s.pixelSize + ((s.cols - 1 : Nat) : Rat) / 2 = (p.col : Rat) := by
    field_simp
    ring
  simp only [hy, hx, roundHalfAway_natCast, Int.toNat_natCast]
  rw [if_pos (by simp [ImageSensor.containsPixel, hr, hc])]

/-- Witness for C6 on a concrete 2-by-2 sensor. -/
theorem pixel_coordinate_roundtrip_witness :
    ((ImageSensor.mk 1 2 2).sensorFromPixel ⟨1, 0⟩).bind
      (ImageSensor.mk 1 2 2).pixelFromSensor = some ⟨1, 0⟩ :=
  pixel_coordinate_roundtrip ⟨1, 2, 2⟩ ⟨1, 0⟩ (by norm_num) (by norm_num)
    (by norm_num)

/-- C7, evaluation at the failing input: on a 3-by-3 sensor with unit
pixel pitch, the coordinate (x = -3, y = 0) yields the rounded column
index -2, which lies outside [0, 3); the claim requires `None`, but the
code returns `Some` of pixel (1, 0) because Rust `as usize` saturates the
negative rounded index to 0 before the bounds check runs. -/
theorem pixelFromSensor_negative_saturates :
    roundHalfAway ((-3 : Rat) / 1 + ((3 - 1 : Nat) : Rat) / 2) = -2 ∧
    (-2 : Int) < 0 ∧
    (ImageSensor.mk 1 3 3).pixelFromSensor ⟨-3, 0⟩ = some ⟨1, 0⟩ := by
  have hcol : roundHalfAway ((-3 : Rat) / 1 + ((3 - 1 : Nat) : Rat) / 2) = -2 := by
    have harg : (-3 : Rat) / 1 + ((3 - 1 : Nat) : Rat) / 2 = -2 := by norm_num
    rw [harg, roundHalfAway, if_neg (by norm_num)]
    have : ⌊(-(-2) : Rat) + 1 / 2⌋ = 2 :=
      Int.floor_eq_iff.mpr ⟨by norm_num, by norm_num⟩
    rw [this]
  have hrow : roundHalfAway ((0 : Rat) / 1 + ((3 - 1 : Nat) : Rat) / 2) = 1 := by
    have harg : (0 : Rat) / 1 + ((3 - 1 : Nat) : Rat) / 2 = 1 := by norm_num
    rw [harg, roundHalfAway, if_pos (by norm_num)]
    exact Int.floor_eq_iff.mpr ⟨by norm_num, by norm_num⟩
  refine ⟨hcol, by norm_num, ?_⟩
  rw [ImageSensor.pixelFromSensor]
  rw [show checkedSub 3 1 = some 2 from by rw [checkedSub]; norm_num]
  show (if _ then _ else _) = _
  have hrow2 : roundHalfAway ((0 : Rat) / 1 + ((2 : Nat) : Rat) / 2) = 1 := by
    exact_mod_cast hrow
  have hcol2 : roundHalfAway ((-3 : Rat) / 1 + ((2 : Nat) : Rat) / 2) = -2 := by
    exact_mod_cast hcol
  rw [hrow2, hcol2]
  rw [if_pos (by simp [ImageSensor.containsPixel])]
  rfl

/-! ## RayImage assembly: `RayImage::from_rays_with_sensor`
(src/image.rs lines 173-361) -/

/-- Camera-frame coordinate of a ray (sguaba `Coordinate<CameraFrd>`),
restricted to the front and right components the sensor mapping reads. -/
structure CamCoord where
  front : Rat
  right : Rat
deriving DecidableEq

/-- Ray carrying its originating camera-frame coordinate.  The generation
of `Ray` exposing the `coord()` accessor used by
`RayImage::from_rays_with_sensor` is not part of the source snapshot;
following spec section 4.4, a ray is modelled as its originating
coordinate together with its angle and degree of polarization. -/
structure CRay where
  coord : CamCoord
  aop : Rat
  dop : Rat
deriving DecidableEq

namespace Img

/-- `ImageSensor` of src/image.rs lines 173-190: separate pixel width and
height plus row and column extents. -/
structure ImageSensor where
  pixelWidth : Rat
  pixelHeight : Rat
  rows : Nat
  cols : Nat
deriving DecidableEq

/-- `ImageSensor::at_coord` (src/image.rs lines 204-217): the FRD right
component maps to the row, the FRD front component to the column; the
rounded indices are saturated to zero by `as usize` before the bounds
check. -/
def ImageSensor.atCoord (s : ImageSensor) (c : CamCoord) :
    Option (Nat × Nat) :=
  match checkedSub s.rows 1, checkedSub s.cols 1 with
  | some rowsSub1, some colsSub1 =>
    let row := (roundHalfAway (c.right / s.pixelHeight + (rowsSub1 : Rat) / 2)).toNat
    let col := (roundHalfAway (c.front / s.pixelWidth + (colsSub1 : Rat) / 2)).toNat
    if row < s.rows ∧ col < s.cols then some (row, col) else none
  | _, _ => none

end Img

/-- `ImageError` of src/image.rs lines 306-320. -/
inductive ImageError where
  | ambiguousRay (row col : Nat)
  | outOfBoundsRay (coord : CamCoord)
  | sizeMismatch (rows cols len : Nat)
deriving DecidableEq

/-- Row-major matrix of src/image.rs lines 239-298. -/
structure Mat (α : Type) where
  elements : List α
  rows : Nat
  cols : Nat
deriving DecidableEq

/-- `Matrix::index` (src/image.rs lines 277-279). -/
def Mat.index (m : Mat α) (row col : Nat) : Nat :=
  row * m.cols + col

/-- `Matrix::get` (src/image.rs lines 281-284); in-range whenever it is
reached from `from_rays_with_sensor`. -/
def Mat.get [Inhabited α] (m : Mat α) (row col : Nat) : α :=
  m.elements.getD (m.index row col) default

/-- Write through `Matrix::get_mut` followed by `Option::replace`. -/
def Mat.set (m : Mat α) (row col : Nat) (a : α) : Mat α :=
  { m with elements := m.elements.set (m.index row col) a }

/-- `Matrix::from_elements` (src/image.rs lines 247-263). -/
def matFromElements (elements : List α) (rows cols : Nat) :
    Except ImageError (Mat α) :=
  if rows * cols ≠ elements.length then
    .error (.sizeMismatch rows cols elements.length)
  else .ok { elements := elements, rows := rows, cols := cols }

/-- Loop body of `RayImage::from_rays_with_sensor` (src/image.rs lines
346-358): each ray is mapped through `at_coord`; an occupied cell raises
`AmbiguousRay`, an unmappable coordinate raises `OutOfBoundsRay`. -/
def fromRaysGo (s : Img.ImageSensor) (m : Mat (Option CRay)) :
    List CRay → Except ImageError (Mat (Option CRay))
  | [] => .ok m
  | r :: rest =>
    match s.atCoord r.coord with
    | some rc =>
      if (m.get rc.1 rc.2).isSome then .error (.ambiguousRay rc.1 rc.2)
      else fromRaysGo s (m.set rc.1 rc.2 (some r)) rest
    | none => .error (.outOfBoundsRay r.coord)

/-- `RayImage::from_rays_with_sensor` (src/image.rs lines 339-361). -/
def fromRaysWithSensor (rays : List CRay) (s : Img.ImageSensor) :
    Except ImageError (Mat (Option CRay)) :=
  match matFromElements (List.replicate (s.rows * s.cols) (none : Option CRay))
      s.rows s.cols with
  | .error e => .error e
  | .ok m => fromRaysGo s m rays

/-- Rays at distinct positions in the stream never map to the same pixel. -/
def DistinctPixels (s : Img.ImageSensor) (rays : List CRay) : Prop :=
  rays.Pairwise (fun a b => s.atCoord a.coord ≠ s.atCoord b.coord)

theorem atCoord_bounds (s : Img.ImageSensor) (c : CamCoord) (rc : Nat × Nat)
    (h : s.atCoord c = some rc) : rc.1 < s.rows ∧ rc.2 < s.cols := by
  rw [Img.ImageSensor.atCoord] at h
  rcases h1 : checkedSub s.rows 1 with _ | r1 <;> rw [h1] at h
  · exact absurd h (by simp)
  rcases h2 : checkedSub s.cols 1 with _ | c1 <;> rw [h2] at h
  · exact absurd h (by simp)
  simp only at h
  split at h
  · injection h with h
    subst h
    assumption
  · exact absurd h (by simp)

theorem mat_index_inj (m : Mat α) (r1 c1 r2 c2 : Nat)
    (hc1 : c1 < m.cols) (hc2 : c2 < m.cols)
    (h : m.index r1 c1 = m.index r2 c2) : r1 = r2 ∧ c1 = c2 := by
  rw [Mat.index, Mat.index] at h
  have hcols : 0 < m.cols := by omega
  have hmod : c1 = c2 := by
    have h1 : (r1 * m.cols + c1) % m.cols = c1 % m.cols :=
      Nat.mul_add_mod' r1 m.cols c1
    have h2 : (r2 * m.cols + c2) % m.cols = c2 % m.cols :=
      Nat.mul_add_mod' r2 m.cols c2
    rw [Nat.mod_eq_of_lt hc1] at h1
    rw [Nat.mod_eq_of_lt hc2] at h2
    rw [← h1, ← h2, h]
  subst hmod
  have : r1 * m.cols = r2 * m.cols := by omega
  exact ⟨Nat.eq_of_mul_eq_mul_right hcols this, rfl⟩

theorem mat_get_set_same_index [Inhabited α] (m : Mat α)
    (row col row2 col2 : Nat) (a : α)
    (hidx : m.index row2 col2 = m.index row col)
    (h : m.index row col < m.elements.length) :
    (m.set row col a).get row2 col2 = a := by
  rw [Mat.get]
  rw [show (m.set row col a).index row2 col2 = m.index row2 col2 from rfl, hidx]
  show (m.elements.set (m.index row col) a).getD (m.index row col) default = a
  rw [List.getD_eq_getElem?_getD, List.getElem?_set_self (by exact h)]
  rfl

theorem mat_get_set_same [Inhabited α] (m : Mat α) (row col : Nat) (a : α)
    (h : m.index row col < m.elements.length) :
    (m.set row col a).get row col = a :=
  mat_get_set_same_index m row col row col a rfl h

theorem mat_get_set_other [Inhabited α] (m : Mat α) (row col row2 col2 : Nat)
    (a : α) (hne : m.index row2 col2 ≠ m.index row col) :
    (m.set row col a).get row2 col2 = m.get row2 col2 := by
  have hne2 : m.index row col ≠ m.index row2 col2 := fun hEq => hne hEq.symm
  rw [Mat.get, Mat.get]
  rw [show (m.set row col a).index row2 col2 = m.index row2 col2 from rfl]
  rw [show (m.set row col a).elements =
    m.elements.set (m.index row col) a from rfl]
  rw [List.getD_eq_getElem?_getD, List.getD_eq_getElem?_getD,
    List.getElem?_set_ne hne2]

theorem mat_get_mono [Inhabited (Option β)] (m : Mat (Option β)) (row col : Nat)
    (x : Option β) (hcell : m.get row col = none) (row2 col2 : Nat) (v : β)
    (h : m.get row2 col2 = some v) :
    (m.set row col x).get row2 col2 = some v := by
  by_cases hidx : m.index row2 col2 = m.index row col
  · rw [Mat.get, hidx, ← Mat.get, hcell] at h
    exact absurd h (by simp)
  · rw [mat_get_set_other m row col row2 col2 x hidx]
    exact h

/-- Completeness direction: in-bounds rays on pairwise distinct pixels
assemble successfully and each ray ends at its pixel. -/
theorem fromRaysGo_ok (s : Img.ImageSensor) (rays : List CRay) :
    ∀ m : Mat (Option CRay), m.cols = s.cols →
    m.elements.length = m.rows * m.cols →
    (∀ r ∈ rays, ∃ rc, s.atCoord r.coord = some rc ∧ m.get rc.1 rc.2 = none) →
    m.rows = s.rows →
    DistinctPixels s rays →
    ∃ m', fromRaysGo s m rays = .ok m' ∧
      (∀ row col v, m.get row col = some v → m'.get row col = some v) ∧
      (∀ r ∈ rays, ∀ rc, s.atCoord r.coord = some rc →
        m'.get rc.1 rc.2 = some r) := by
  induction rays with
  | nil =>
    intro m _ _ _ _ _
    exact ⟨m, rfl, fun _ _ _ h => h, by simp⟩
  | cons r rest ih =>
    intro m hcols hlen hcells hrows hdist
    obtain ⟨rc, hrc, hcell⟩ := hcells r (by simp)
    obtain ⟨hb1, hb2⟩ := atCoord_bounds s r.coord rc hrc
    have hdist2 := (List.pairwise_cons.mp hdist).2
    have hhead := (List.pairwise_cons.mp hdist).1
    have hidxlt : m.index rc.1 rc.2 < m.elements.length := by
      rw [hlen, Mat.index]
      calc rc.1 * m.cols + rc.2 < rc.1 * m.cols + m.cols := by omega
        _ = (rc.1 + 1) * m.cols := by ring
        _ ≤ m.rows * m.cols := Nat.mul_le_mul_right _ (by omega)
    have hstep : fromRaysGo s m (r :: rest) =
        fromRaysGo s (m.set rc.1 rc.2 (some r)) rest := by
      rw [fromRaysGo, hrc]
      simp only [hcell, Option.isSome_none, Bool.false_eq_true, if_false]
    set m2 := m.set rc.1 rc.2 (some r) with hm2
    have hm2cols : m2.cols = s.cols := hcols
    have hm2rows : m2.rows = s.rows := hrows
    have hm2len : m2.elements.length = m2.rows * m2.cols := by
      rw [hm2, Mat.set]
      simpa using hlen
    have hm2cells : ∀ x ∈ rest, ∃ xc, s.atCoord x.coord = some xc ∧
        m2.get xc.1 xc.2 = none := by
      intro x hx
      obtain ⟨xc, hxc, hxcell⟩ := hcells x (by simp [hx])
      refine ⟨xc, hxc, ?_⟩
      have hneq : s.atCoord x.coord ≠ s.atCoord r.coord :=
        fun hEq => (hhead x hx) hEq.symm
      have hrcneq : xc ≠ rc := by
        intro hEq
        exact hneq (by rw [hxc, hrc, hEq])
      obtain ⟨hxb1, hxb2⟩ := atCoord_bounds s x.coord xc hxc
      have hidx : m.index xc.1 xc.2 ≠ m.index rc.1 rc.2 := by
        intro hEq
        obtain ⟨e1, e2⟩ := mat_index_inj m xc.1 xc.2 rc.1 rc.2
          (by omega) (by omega) hEq
        exact hrcneq (Prod.ext e1 e2)
      rw [mat_get_set_other m rc.1 rc.2 xc.1 xc.2 (some r) hidx]
      exact hxcell
    obtain ⟨m', hok, hmono, hplace⟩ :=
      ih m2 hm2cols hm2len hm2cells hm2rows hdist2
    refine ⟨m', by rw [hstep, hok], ?_, ?_⟩
    · intro row col v hv
      exact hmono row col v (mat_get_mono m rc.1 rc.2 (some r) hcell row col v hv)
    · intro x hx xc hxc
      rcases List.mem_cons.mp hx with hEq | hmem
      · subst hEq
        rw [hxc] at hrc
        injection hrc with hrc
        subst hrc
        exact hmono xc.1 xc.2 x (mat_get_set_same m xc.1 xc.2 (some x) hidxlt)
      · exact hplace x hmem xc hxc

theorem mat_index_lt (s : Img.ImageSensor) (m : Mat (Option CRay))
    (hcols : m.cols = s.cols) (hrows : m.rows = s.rows)
    (hlen : m.elements.length = m.rows * m.cols) (rc : Nat × Nat)
    (hb1 : rc.1 < s.rows) (hb2 : rc.2 < s.cols) :
    m.index rc.1 rc.2 < m.elements.length := by
  rw [hlen, Mat.index]
  calc rc.1 * m.cols + rc.2 < rc.1 * m.cols + m.cols := by omega
    _ = (rc.1 + 1) * m.cols := by ring
    _ ≤ m.rows * m.cols := Nat.mul_le_mul_right _ (by omega)

/-- Soundness direction: a successful assembly implies every ray was
in-bounds with an initially empty cell, and pixels were pairwise
distinct. -/
theorem fromRaysGo_ok_inv (s : Img.ImageSensor) (rays : List CRay) :
    ∀ (m m' : Mat (Option CRay)), m.cols = s.cols → m.rows = s.rows →
      m.elements.length = m.rows * m.cols →
      fromRaysGo s m rays = .ok m' →
      (∀ r ∈ rays, ∃ rc, s.atCoord r.coord = some rc ∧ m.get rc.1 rc.2 = none) ∧
      DistinctPixels s rays := by
  induction rays with
  | nil =>
    intro m m' _ _ _ _
    exact ⟨by simp, List.Pairwise.nil⟩
  | cons r rest ih =>
    intro m m' hcols hrows hlen h
    rw [fromRaysGo] at h
    rcases hrc : s.atCoord r.coord with _ | rc <;> rw [hrc] at h
    · exact absurd h (by simp)
    simp only at h
    split at h
    · exact absurd h (by simp)
    case isFalse hnotsome =>
    obtain ⟨hb1, hb2⟩ := atCoord_bounds s r.coord rc hrc
    have hidxlt : m.index rc.1 rc.2 < m.elements.length :=
      mat_index_lt s m hcols hrows hlen rc hb1 hb2
    have hcell : m.get rc.1 rc.2 = none := by
      rcases hv : m.get rc.1 rc.2 with _ | v
      · rfl
      · rw [hv] at hnotsome
        exact absurd rfl hnotsome
    have hsetlen : (m.set rc.1 rc.2 (some r)).elements.length =
        (m.set rc.1 rc.2 (some r)).rows * (m.set rc.1 rc.2 (some r)).cols := by
      rw [Mat.set]
      simpa using hlen
    obtain ⟨hcells2, hdist2⟩ :=
      ih (m.set rc.1 rc.2 (some r)) m' hcols hrows hsetlen h
    have hsetcell : (m.set rc.1 rc.2 (some r)).get rc.1 rc.2 = some r :=
      mat_get_set_same m rc.1 rc.2 (some r) hidxlt
    constructor
    · intro x hx
      rcases List.mem_cons.mp hx with hEq | hmem
      · subst hEq
        exact ⟨rc, hrc, hcell⟩
      · obtain ⟨xc, hxc, hxcell⟩ := hcells2 x hmem
        refine ⟨xc, hxc, ?_⟩
        by_cases hidx : m.index xc.1 xc.2 = m.index rc.1 rc.2
        · exfalso
          rw [mat_get_set_same_index m rc.1 rc.2 xc.1 xc.2 (some r) hidx hidxlt]
            at hxcell
          exact absurd hxcell (by simp)
        · rw [mat_get_set_other m rc.1 rc.2 xc.1 xc.2 (some r) hidx] at hxcell
          exact hxcell
    · rw [DistinctPixels, List.pairwise_cons]
      refine ⟨?_, hdist2⟩
      intro x hx hEq
      obtain ⟨xc, hxc, hxcell⟩ := hcells2 x hx
      rw [hrc, hxc] at hEq
      injection hEq with hEq
      rw [← hEq] at hxcell
      rw [hsetcell] at hxcell
      exact absurd hxcell (by simp)

theorem fromRaysGo_not_oob (s : Img.ImageSensor) (rays : List CRay) :
    ∀ m : Mat (Option CRay), (∀ r ∈ rays, (s.atCoord r.coord).isSome) →
      (∃ m', fromRaysGo s m rays = .ok m') ∨
      (∃ row col, fromRaysGo s m rays = .error (.ambiguousRay row col)) := by
  induction rays with
  | nil => exact fun m _ => Or.inl ⟨m, rfl⟩
  | cons r rest ih =>
    intro m hall
    have hr := hall r (by simp)
    rcases hrc : s.atCoord r.coord with _ | rc
    · rw [hrc] at hr
      exact absurd hr (by simp)
    rw [fromRaysGo, hrc]
    simp only
    by_cases hcell : (m.get rc.1 rc.2).isSome
    · rw [if_pos hcell]
      exact Or.inr ⟨rc.1, rc.2, rfl⟩
    · rw [if_neg hcell]
      exact ih (m.set rc.1 rc.2 (some r)) (fun x hx => hall x (by simp [hx]))

theorem initMat_get (R C row col : Nat) :
    (Mat.mk (List.replicate (R * C) (none : Option CRay)) R C).get row col =
      none := by
  rw [Mat.get, List.getD_eq_getElem?_getD, List.getElem?_replicate]
  split <;> rfl

/-- C8, amended: `from_rays_with_sensor` succeeds exactly when every ray
maps to a pixel and no two rays map to the same pixel; on success every
ray sits at its computed pixel; two rays on one pixel are never silently
merged: if all rays are in bounds a collision produces `AmbiguousRay`,
and any failure cause produces an error, the error reporting the first
fault in stream order. -/
theorem fromRaysWithSensor_spec (rays : List CRay) (s : Img.ImageSensor) :
    (∀ m, fromRaysWithSensor rays s = .ok m →
      (∀ r ∈ rays, (s.atCoord r.coord).isSome) ∧
      DistinctPixels s rays ∧
      (∀ r ∈ rays, ∀ rc, s.atCoord r.coord = some rc →
        m.get rc.1 rc.2 = some r)) ∧
    ((∀ r ∈ rays, (s.atCoord r.coord).isSome) → DistinctPixels s rays →
      ∃ m, fromRaysWithSensor rays s = .ok m) ∧
    ((∀ r ∈ rays, (s.atCoord r.coord).isSome) → ¬ DistinctPixels s rays →
      ∃ row col, fromRaysWithSensor rays s = .error (.ambiguousRay row col)) ∧
    ((∃ r ∈ rays, s.atCoord r.coord = none) →
      ∃ e, fromRaysWithSensor rays s = .error e) := by
  have hinit : fromRaysWithSensor rays s =
      fromRaysGo s ⟨List.replicate (s.rows * s.cols) none, s.rows, s.cols⟩
        rays := by
    rw [fromRaysWithSensor, matFromElements]
    rw [if_neg (by simp)]
  set m0 : Mat (Option CRay) :=
    ⟨List.replicate (s.rows * s.cols) none, s.rows, s.cols⟩ with hm0
  have hm0cols : m0.cols = s.cols := rfl
  have hm0rows : m0.rows = s.rows := rfl
  have hm0len : m0.elements.length = m0.rows * m0.cols := by
    simp [hm0]
  have hok_fwd : ∀ m, fromRaysWithSensor rays s = .ok m →
      (∀ r ∈ rays, (s.atCoord r.coord).isSome) ∧ DistinctPixels s rays := by
    intro m hm
    rw [hinit] at hm
    obtain ⟨hcells, hdist⟩ :=
      fromRaysGo_ok_inv s rays m0 m hm0cols hm0rows hm0len hm
    refine ⟨?_, hdist⟩
    intro r hr
    obtain ⟨rc, hrc, _⟩ := hcells r hr
    rw [hrc]
    rfl
  have hok_build : (∀ r ∈ rays, (s.atCoord r.coord).isSome) →
      DistinctPixels s rays →
      ∃ m', fromRaysGo s m0 rays = .ok m' ∧
        (∀ r ∈ rays, ∀ rc, s.atCoord r.coord = some rc →
          m'.get rc.1 rc.2 = some r) := by
    intro hall hdist
    have hcells : ∀ r ∈ rays, ∃ rc, s.atCoord r.coord = some rc ∧
        m0.get rc.1 rc.2 = none := by
      intro r hr
      have hsome := hall r hr
      rcases hrc : s.atCoord r.coord with _ | rc
      · rw [hrc] at hsome
        exact absurd hsome (by simp)
      · exact ⟨rc, rfl, initMat_get s.rows s.cols rc.1 rc.2⟩
    obtain ⟨m', hok, _, hplace⟩ :=
      fromRaysGo_ok s rays m0 hm0cols hm0len hcells hm0rows hdist
    exact ⟨m', hok, hplace⟩
  refine ⟨?_, ?_, ?_, ?_⟩
  · intro m hm
    obtain ⟨hall, hdist⟩ := hok_fwd m hm
    refine ⟨hall, hdist, ?_⟩
    obtain ⟨m', hok, hplace⟩ := hok_build hall hdist
    rw [hinit] at hm
    rw [hm] at hok
    injection hok with hok
    rw [hok]
    exact hplace
  · intro hall hdist
    obtain ⟨m', hok, _⟩ := hok_build hall hdist
    exact ⟨m', by rw [hinit, hok]⟩
  · intro hall hnotdist
    rcases fromRaysGo_not_oob s rays m0 hall with ⟨m', hok⟩ | ⟨row, col, herr⟩
    · exact absurd (hok_fwd m' (by rw [hinit, hok])).2 hnotdist
    · exact ⟨row, col, by rw [hinit, herr]⟩
  · intro ⟨r, hr, hnone⟩
    rcases hres : fromRaysWithSensor rays s with e | m
    · exact ⟨e, rfl⟩
    · have hsome := (hok_fwd m hres).1 r hr
      rw [hnone] at hsome
      exact absurd hsome (by simp)

theorem atCoord_unit_origin :
    (Img.ImageSensor.mk 1 1 1 1).atCoord ⟨0, 0⟩ = some (0, 0) := by
  have hround : roundHalfAway ((0 : Rat) / 1 + ((0 : Nat) : Rat) / 2) = 0 := by
    rw [show ((0 : Rat) / 1 + ((0 : Nat) : Rat) / 2) = 0 by norm_num]
    rw [roundHalfAway, if_pos le_rfl]
    exact Int.floor_eq_iff.mpr ⟨by norm_num, by norm_num⟩
  rw [Img.ImageSensor.atCoord]
  rw [show checkedSub 1 1 = some 0 from rfl]
  simp only
  rw [if_pos ⟨by rw [hround]; norm_num, by rw [hround]; norm_num⟩]
  rw [hround]
  rfl

/-- Witness for C8 amended: a single in-bounds ray assembles successfully. -/
theorem fromRaysWithSensor_spec_witness :
    (∃ m, fromRaysWithSensor [CRay.mk ⟨0, 0⟩ 0 0] ⟨1, 1, 1, 1⟩ = .ok m) := by
  have hsome : ∀ r ∈ [CRay.mk ⟨0, 0⟩ 0 0],
      ((Img.ImageSensor.mk 1 1 1 1).atCoord r.coord).isSome := by
    intro r hr
    simp only [List.mem_singleton] at hr
    subst hr
    rw [show (CRay.mk ⟨0, 0⟩ 0 0).coord = ⟨0, 0⟩ from rfl, atCoord_unit_origin]
    rfl
  have hdist : DistinctPixels ⟨1, 1, 1, 1⟩ [CRay.mk ⟨0, 0⟩ 0 0] :=
    List.pairwise_singleton _ _
  exact (fromRaysWithSensor_spec [CRay.mk ⟨0, 0⟩ 0 0] ⟨1, 1, 1, 1⟩).2.1
    hsome hdist

/-- Concrete out-of-bounds ray for the C8 counterexample. -/
def rayOob : CRay := ⟨⟨5, 5⟩, 0, 0⟩

/-- First of two colliding rays for the C8 counterexample. -/
def rayA : CRay := ⟨⟨0, 0⟩, 0, 0⟩

/-- Second of two colliding rays for the C8 counterexample. -/
def rayB : CRay := ⟨⟨0, 0⟩, 1, 0⟩

/-- C8, counterexample: a stream holding an out-of-bounds ray followed by
two rays that map to the same pixel (0, 0) of a one-pixel sensor returns
`OutOfBoundsRay`, not `AmbiguousRay`, although two input rays map to the
same pixel; the claim that `AmbiguousRay` is returned whenever two rays
collide therefore fails when an out-of-bounds ray precedes the
collision. -/
theorem fromRaysWithSensor_oob_shadows_collision :
    fromRaysWithSensor [rayOob, rayA, rayB] ⟨1, 1, 1, 1⟩ =
      .error (.outOfBoundsRay ⟨5, 5⟩) ∧
    (Img.ImageSensor.mk 1 1 1 1).atCoord rayA.coord = some (0, 0) ∧
    (Img.ImageSensor.mk 1 1 1 1).atCoord rayB.coord = some (0, 0) ∧
    rayA ≠ rayB ∧
    (Except.error (ImageError.outOfBoundsRay ⟨5, 5⟩) :
        Except ImageError (Mat (Option CRay))) ≠
      .error (.ambiguousRay 0 0) := by
  have hout : (Img.ImageSensor.mk 1 1 1 1).atCoord ⟨5, 5⟩ = none := by
    rw [Img.ImageSensor.atCoord]
    rw [show checkedSub 1 1 = some 0 from rfl]
    simp only
    rw [if_neg ?_]
    intro ⟨h1, _⟩
    rw [show ((5 : Rat) / 1 + ((0 : Nat) : Rat) / 2) = 5 by norm_num] at h1
    rw [roundHalfAway, if_pos (by norm_num)] at h1
    rw [show ⌊(5 : Rat) + 1 / 2⌋ = 5 from
      Int.floor_eq_iff.mpr ⟨by norm_num, by norm_num⟩] at h1
    exact absurd h1 (by norm_num)
  refine ⟨?_, atCoord_unit_origin, atCoord_unit_origin, by simp [rayA, rayB],
    by simp⟩
  have hstart : fromRaysWithSensor [rayOob, rayA, rayB] ⟨1, 1, 1, 1⟩ =
      fromRaysGo ⟨1, 1, 1, 1⟩ ⟨List.replicate (1 * 1) none, 1, 1⟩
        [rayOob, rayA, rayB] := by
    rw [fromRaysWithSensor, matFromElements, if_neg (by simp)]
  rw [hstart, fromRaysGo,
    show (Img.ImageSensor.mk 1 1 1 1).atCoord rayOob.coord = none from hout]
  rfl

/-! ## Polarization angle wrap (src/light/aop.rs) and Rayleigh sky model
(src/model.rs), over real radians.  A uom `Angle` holds an `f64` in
radians and `Angle::HALF_TURN` is pi. -/

/-- Descending wrap loop of `Aop::from_angle_wrapped` (src/light/aop.rs
lines 49-51): while the angle exceeds a quarter turn, subtract a half
turn.  Well-founded recursion witnesses that the loop terminates for
every real input. -/
noncomputable def wrapSub (a : Real) : Real :=
  if Real.pi / 2 < a then wrapSub (a - Real.pi) else a
termination_by (⌈(a - Real.pi / 2) / Real.pi⌉).toNat
decreasing_by
  have hpi := Real.pi_pos
  have h1 : (0 : Real) < (a - Real.pi / 2) / Real.pi :=
    div_pos (by linarith) hpi
  have h2 : (1 : Int) ≤ ⌈(a - Real.pi / 2) / Real.pi⌉ :=
    Int.one_le_ceil_iff.mpr h1
  have he : (a - Real.pi - Real.pi / 2) / Real.pi =
      (a - Real.pi / 2) / Real.pi - 1 := by
    field_simp
    ring
  have h3 : ⌈(a - Real.pi - Real.pi / 2) / Real.pi⌉ =
      ⌈(a - Real.pi / 2) / Real.pi⌉ - 1 := by
    rw [he]
    exact_mod_cast Int.ceil_sub_int ((a - Real.pi / 2) / Real.pi) 1
  omega

/-- Ascending wrap loop of `Aop::from_angle_wrapped` (src/light/aop.rs
lines 53-55): while the angle is below minus a quarter turn, add a half
turn. -/
noncomputable def wrapAdd (a : Real) : Real :=
  if a < -(Real.pi / 2) then wrapAdd (a + Real.pi) else a
termination_by (⌈(-a - Real.pi / 2) / Real.pi⌉).toNat
decreasing_by
  have hpi := Real.pi_pos
  have h1 : (0 : Real) < (-a - Real.pi / 2) / Real.pi :=
    div_pos (by linarith) hpi
  have h2 : (1 : Int) ≤ ⌈(-a - Real.pi / 2) / Real.pi⌉ :=
    Int.one_le_ceil_iff.mpr h1
  have he : (-(a + Real.pi) - Real.pi / 2) / Real.pi =
      (-a - Real.pi / 2) / Real.pi - 1 := by
    field_simp
    ring
  have h3 : ⌈(-(a + Real.pi) - Real.pi / 2) / Real.pi⌉ =
      ⌈(-a - Real.pi / 2) / Real.pi⌉ - 1 := by
    rw [he]
    exact_mod_cast Int.ceil_sub_int ((-a - Real.pi / 2) / Real.pi) 1
  omega

/-- Angle of polarization (src/light/aop.rs `Aop`); the phantom frame tag
does not affect the arithmetic and is dropped. -/
structure AopR where
  inner : Real

/-- `Aop::from_angle` (src/light/aop.rs lines 36-45): `None` unless the
angle lies in the closed interval from minus a quarter turn to a quarter
turn. -/
noncomputable def fromAngle (angle : Real) : Option AopR :=
  if -(Real.pi / 2) ≤ angle ∧ angle ≤ Real.pi / 2 then some ⟨angle⟩ else none

/-- The angle value computed by `Aop::from_angle_wrapped` before the final
`from_angle` check. -/
noncomputable def fromAngleWrappedVal (angle : Real) : Real :=
  wrapAdd (wrapSub angle)

/-- `Aop::from_angle_wrapped` (src/light/aop.rs lines 48-59); the final
`expect` is modelled by returning the option produced by `from_angle`. -/
noncomputable def fromAngleWrapped (angle : Real) : Option AopR :=
  fromAngle (fromAngleWrappedVal angle)

theorem wrapSub_le (a : Real) : wrapSub a ≤ Real.pi / 2 := by
  by_cases h : Real.pi / 2 < a
  · rw [wrapSub, if_pos h]
    exact wrapSub_le (a - Real.pi)
  · rw [wrapSub, if_neg h]
    exact le_of_not_lt h
termination_by (⌈(a - Real.pi / 2) / Real.pi⌉).toNat
decreasing_by
  have hpi := Real.pi_pos
  have h1 : (0 : Real) < (a - Real.pi / 2) / Real.pi :=
    div_pos (by linarith) hpi
  have h2 : (1 : Int) ≤ ⌈(a - Real.pi / 2) / Real.pi⌉ :=
    Int.one_le_ceil_iff.mpr h1
  have he : (a - Real.pi - Real.pi / 2) / Real.pi =
      (a - Real.pi / 2) / Real.pi - 1 := by
    field_simp
    ring
  have h3 : ⌈(a - Real.pi - Real.pi / 2) / Real.pi⌉ =
      ⌈(a - Real.pi / 2) / Real.pi⌉ - 1 := by
    rw [he]
    exact_mod_cast Int.ceil_sub_int ((a - Real.pi / 2) / Real.pi) 1
  omega

theorem wrapSub_ge (a : Real) (h : -(Real.pi / 2) ≤ a) :
    -(Real.pi / 2) ≤ wrapSub a := by
  by_cases hgt : Real.pi / 2 < a
  · rw [wrapSub, if_pos hgt]
    have hpi := Real.pi_pos
    exact wrapSub_ge (a - Real.pi) (by linarith)
  · rw [wrapSub, if_neg hgt]
    exact h
termination_by (⌈(a - Real.pi / 2) / Real.pi⌉).toNat
decreasing_by
  have hpi := Real.pi_pos
  have h1 : (0 : Real) < (a - Real.pi / 2) / Real.pi :=
    div_pos (by linarith) hpi
  have h2 : (1 : Int) ≤ ⌈(a - Real.pi / 2) / Real.pi⌉ :=
    Int.one_le_ceil_iff.mpr h1
  have he : (a - Real.pi - Real.pi / 2) / Real.pi =
      (a - Real.pi / 2) / Real.pi - 1 := by
    field_simp
    ring
  have h3 : ⌈(a - Real.pi - Real.pi / 2) / Real.pi⌉ =
      ⌈(a - Real.pi / 2) / Real.pi⌉ - 1 := by
    rw [he]
    exact_mod_cast Int.ceil_sub_int ((a - Real.pi / 2) / Real.pi) 1
  omega

theorem wrapAdd_ge (a : Real) : -(Real.pi / 2) ≤ wrapAdd a := by
  by_cases h : a < -(Real.pi / 2)
  · rw [wrapAdd, if_pos h]
    exact wrapAdd_ge (a + Real.pi)
  · rw [wrapAdd, if_neg h]
    exact le_of_not_lt h
termination_by (⌈(-a - Real.pi / 2) / Real.pi⌉).toNat
decreasing_by
  have hpi := Real.pi_pos
  have h1 : (0 : Real) < (-a - Real.pi / 2) / Real.pi :=
    div_pos (by linarith) hpi
  have h2 : (1 : Int) ≤ ⌈(-a - Real.pi / 2) / Real.pi⌉ :=
    Int.one_le_ceil_iff.mpr h1
  have he : (-(a + Real.pi) - Real.pi / 2) / Real.pi =
      (-a - Real.pi / 2) / Real.pi - 1 := by
    field_simp
    ring
  have h3 : ⌈(-(a + Real.pi) - Real.pi / 2) / Real.pi⌉ =
      ⌈(-a - Real.pi / 2) / Real.pi⌉ - 1 := by
    rw [he]
    exact_mod_cast Int.ceil_sub_int ((-a - Real.pi / 2) / Real.pi) 1
  omega

theorem wrapAdd_le (a : Real) (h : a ≤ Real.pi / 2) :
    wrapAdd a ≤ Real.pi / 2 := by
  by_cases hlt : a < -(Real.pi / 2)
  · rw [wrapAdd, if_pos hlt]
    have hpi := Real.pi_pos
    exact wrapAdd_le (a + Real.pi) (by linarith)
  · rw [wrapAdd, if_neg hlt]
    exact h
termination_by (⌈(-a - Real.pi / 2) / Real.pi⌉).toNat
decreasing_by
  have hpi := Real.pi_pos
  have h1 : (0 : Real) < (-a - Real.pi / 2) / Real.pi :=
    div_pos (by linarith) hpi
  have h2 : (1 : Int) ≤ ⌈(-a - Real.pi / 2) / Real.pi⌉ :=
    Int.one_le_ceil_iff.mpr h1
  have he : (-(a + Real.pi) - Real.pi / 2) / Real.pi =
      (-a - Real.pi / 2) / Real.pi - 1 := by
    field_simp
    ring
  have h3 : ⌈(-(a + Real.pi) - Real.pi / 2) / Real.pi⌉ =
      ⌈(-a - Real.pi / 2) / Real.pi⌉ - 1 := by
    rw [he]
    exact_mod_cast Int.ceil_sub_int ((-a - Real.pi / 2) / Real.pi) 1
  omega

/-- C9: `Aop::from_angle_wrapped` is total for every (finite) real input:
the wrap loops terminate, the result lies in the closed interval from -90
to 90 degrees, and the internal `from_angle(..).expect(..)` assertion can
never fire.  Termination of the loops is witnessed by the well-founded
recursions defining `wrapSub` and `wrapAdd`. -/
theorem fromAngleWrapped_total (angle : Real) :
    fromAngleWrapped angle = some ⟨fromAngleWrappedVal angle⟩ ∧
    -(Real.pi / 2) ≤ fromAngleWrappedVal angle ∧
    fromAngleWrappedVal angle ≤ Real.pi / 2 := by
  have hge : -(Real.pi / 2) ≤ fromAngleWrappedVal angle := wrapAdd_ge _
  have hle : fromAngleWrappedVal angle ≤ Real.pi / 2 :=
    wrapAdd_le _ (wrapSub_le angle)
  exact ⟨by rw [fromAngleWrapped, fromAngle, if_pos ⟨hge, hle⟩], hge, hle⟩

/-- IEEE `f64::atan2(y, x)` over the reals: the quadrant-aware arctangent,
zero at the origin. -/
noncomputable def atan2 (y x : Real) : Real :=
  if 0 < x then Real.arctan (y / x)
  else if x < 0 then
    if 0 ≤ y then Real.arctan (y / x) + Real.pi
    else Real.arctan (y / x) - Real.pi
  else
    if 0 < y then Real.pi / 2
    else if y < 0 then -(Real.pi / 2)
    else 0

/-- Azimuth and elevation of a sguaba `Bearing`, in radians. -/
structure BearingR where
  azimuth : Real
  elevation : Real

/-- `SkyModel` (src/model.rs): stores the solar bearing. -/
structure SkyModelR where
  solarBearing : BearingR

/-- Numerator of the `atan2` call in `SkyModel::aop` (src/model.rs lines
81-82), with `zenith = pi/2 - elevation` substituted. -/
noncomputable def skyAopNumer (m : SkyModelR) (b : BearingR) : Real :=
  Real.sin (Real.pi / 2 - b.elevation) *
      Real.cos (Real.pi / 2 - m.solarBearing.elevation) -
    Real.cos (Real.pi / 2 - b.elevation) *
      Real.cos (b.azimuth - m.solarBearing.azimuth) *
      Real.sin (Real.pi / 2 - m.solarBearing.elevation)

/-- Denominator of the `atan2` call in `SkyModel::aop` (src/model.rs line
83). -/
noncomputable def skyAopDenom (m : SkyModelR) (b : BearingR) : Real :=
  Real.sin (b.azimuth - m.solarBearing.azimuth) *
    Real.sin (Real.pi / 2 - m.solarBearing.elevation)

/-- `SkyModel::aop` (src/model.rs lines 72-86): `None` below the horizon,
otherwise the wrapped `atan2` of the Rayleigh angle expression. -/
noncomputable def SkyModelR.aop (m : SkyModelR) (b : BearingR) :
    Option AopR :=
  if b.elevation < 0 then none
  else fromAngleWrapped (atan2 (skyAopNumer m b) (skyAopDenom m b))

/-- C5, counterexample: querying the sky model exactly at the solar
bearing (azimuth 0, elevation pi/2, equal to the solar azimuth and above
the horizon) produces angle `atan2(0, 0) = 0`, whose absolute value is 0,
not 90 degrees. -/
theorem skyAop_at_solar_point :
    SkyModelR.aop ⟨⟨0, Real.pi / 2⟩⟩ ⟨0, Real.pi / 2⟩ = some ⟨0⟩ ∧
    ¬ |(0 : Real)| = Real.pi / 2 := by
  have hpi := Real.pi_pos
  have hnum : skyAopNumer ⟨⟨0, Real.pi / 2⟩⟩ ⟨0, Real.pi / 2⟩ = 0 := by
    rw [skyAopNumer]
    simp
  have hden : skyAopDenom ⟨⟨0, Real.pi / 2⟩⟩ ⟨0, Real.pi / 2⟩ = 0 := by
    rw [skyAopDenom]
    simp
  have hatan : atan2 (0 : Real) 0 = 0 := by
    rw [atan2, if_neg (by norm_num), if_neg (by norm_num), if_neg (by norm_num),
      if_neg (by norm_num)]
  have hwrap : fromAngleWrappedVal 0 = 0 := by
    rw [fromAngleWrappedVal, wrapSub, if_neg (by linarith), wrapAdd,
      if_neg (by simp; linarith)]
  constructor
  · rw [SkyModelR.aop, if_neg (by simp; linarith), hnum, hden, hatan,
      fromAngleWrapped, hwrap, fromAngle, if_pos ⟨by linarith, by linarith⟩]
  · rw [abs_zero]
    intro h
    linarith [h.symm]

/-- C5, amended: at any query bearing above the horizon whose azimuth
equals the solar azimuth or its antipode, the angle returned by
`SkyModel::aop` has absolute value exactly 90 degrees, provided the
`atan2` numerator does not vanish (it vanishes only at degenerate
directions such as the solar bearing itself). -/
theorem skyAop_meridian (m : SkyModelR) (b : BearingR)
    (hel : 0 ≤ b.elevation)
    (haz : b.azimuth = m.solarBearing.azimuth ∨
      b.azimuth = m.solarBearing.azimuth + Real.pi)
    (hn : skyAopNumer m b ≠ 0) :
    ∃ a, m.aop b = some a ∧ |a.inner| = Real.pi / 2 := by
  have hpi := Real.pi_pos
  have hden : skyAopDenom m b = 0 := by
    rw [skyAopDenom]
    rcases haz with h | h
    · rw [h, sub_self, Real.sin_zero, zero_mul]
    · rw [h, add_sub_cancel_left, Real.sin_pi, zero_mul]
  have hatan : atan2 (skyAopNumer m b) (skyAopDenom m b) = Real.pi / 2 ∨
      atan2 (skyAopNumer m b) (skyAopDenom m b) = -(Real.pi / 2) := by
    rw [atan2, hden, if_neg (by norm_num), if_neg (by norm_num)]
    rcases lt_or_gt_of_ne hn with hlt | hgt
    · right
      rw [if_neg (by linarith), if_pos hlt]
    · left
      rw [if_pos hgt]
  have hwrap_pos : fromAngleWrappedVal (Real.pi / 2) = Real.pi / 2 := by
    rw [fromAngleWrappedVal, wrapSub, if_neg (lt_irrefl _), wrapAdd,
      if_neg (by linarith)]
  have hwrap_neg : fromAngleWrappedVal (-(Real.pi / 2)) = -(Real.pi / 2) := by
    rw [fromAngleWrappedVal, wrapSub, if_neg (by linarith), wrapAdd,
      if_neg (lt_irrefl _)]
  rw [SkyModelR.aop, if_neg (not_lt.mpr hel)]
  rcases hatan with h | h
  · refine ⟨⟨Real.pi / 2⟩, ?_, ?_⟩
    · rw [h, fromAngleWrapped, hwrap_pos, fromAngle,
        if_pos ⟨by linarith, le_refl _⟩]
    · exact abs_of_pos (by linarith)
  · refine ⟨⟨-(Real.pi / 2)⟩, ?_, ?_⟩
    · rw [h, fromAngleWrapped, hwrap_neg, fromAngle,
        if_pos ⟨le_refl _, by linarith⟩]
    · rw [abs_neg]
      exact abs_of_pos (by linarith)

/-- Witness for C5 amended: solar bearing at the horizon with azimuth 0,
query bearing at the zenith with azimuth 0. -/
theorem skyAop_meridian_witness :
    ∃ a, SkyModelR.aop ⟨⟨0, 0⟩⟩ ⟨0, Real.pi / 2⟩ = some a ∧
      |a.inner| = Real.pi / 2 := by
  have hnum : skyAopNumer ⟨⟨0, 0⟩⟩ ⟨0, Real.pi / 2⟩ = -1 := by
    rw [skyAopNumer]
    simp
  exact skyAop_meridian ⟨⟨0, 0⟩⟩ ⟨0, Real.pi / 2⟩
    (by positivity) (Or.inl rfl) (by rw [hnum]; norm_num)

/-- Degree of polarization (src/light/dop.rs `Dop`). -/
structure DopR where
  inner : Real

/-- `Dop::new` (src/light/dop.rs lines 19-25): `None` unless the degree
lies in the closed unit interval. -/
noncomputable def dopNew (degree : Real) : Option DopR :=
  if 0 ≤ degree ∧ degree ≤ 1 then some ⟨degree⟩ else none

/-- `SkyModel::dop` (src/model.rs lines 92-109): `None` below the
horizon, otherwise `max_dop * sin^2(gamma) / (1 + cos^2(gamma))` for the
scattering angle `gamma`, fed through `Dop::new(..).unwrap()`, the
`unwrap` modelled by the option produced by `Dop::new`. -/
noncomputable def SkyModelR.dop (m : SkyModelR) (b : BearingR) :
    Option DopR :=
  if b.elevation < 0 then none
  else
    let maxDop : Real := 1
    let scatteringAngle := Real.arccos
      (Real.cos (Real.pi / 2 - b.elevation) *
          Real.cos (Real.pi / 2 - m.solarBearing.elevation) +
        Real.sin (Real.pi / 2 - b.elevation) *
          Real.sin (Real.pi / 2 - m.solarBearing.elevation) *
          Real.cos (b.azimuth - m.solarBearing.azimuth))
    dopNew (maxDop * Real.sin scatteringAngle ^ 2 /
      (1 + Real.cos scatteringAngle ^ 2))

/-- C10: for every solar bearing and every query bearing at or above the
horizon, the degree computed by `SkyModel::dop` lies in the closed unit
interval, so the internal `Dop::new(..).unwrap()` cannot panic and `dop`
returns a value in the unit interval. -/
theorem skyDop_in_range (m : SkyModelR) (b : BearingR)
    (hel : 0 ≤ b.elevation) :
    ∃ d, m.dop b = some d ∧ 0 ≤ d.inner ∧ d.inner ≤ 1 := by
  rw [SkyModelR.dop, if_neg (not_lt.mpr hel)]
  set g := Real.arccos
    (Real.cos (Real.pi / 2 - b.elevation) *
        Real.cos (Real.pi / 2 - m.solarBearing.elevation) +
      Real.sin (Real.pi / 2 - b.elevation) *
        Real.sin (Real.pi / 2 - m.solarBearing.elevation) *
        Real.cos (b.azimuth - m.solarBearing.azimuth)) with hg
  have hpos : (0 : Real) < 1 + Real.cos g ^ 2 := by positivity
  have h0 : 0 ≤ (1 : Real) * Real.sin g ^ 2 / (1 + Real.cos g ^ 2) := by
    positivity
  have h1 : (1 : Real) * Real.sin g ^ 2 / (1 + Real.cos g ^ 2) ≤ 1 := by
    rw [div_le_one hpos, one_mul]
    have hs := Real.sin_sq_le_one g
    have hc := sq_nonneg (Real.cos g)
    linarith
  refine ⟨⟨1 * Real.sin g ^ 2 / (1 + Real.cos g ^ 2)⟩, ?_, h0, h1⟩
  rw [dopNew, if_pos ⟨h0, h1⟩]

/-- Witness for C10 at the zero solar bearing and a horizon-level query
bearing. -/
theorem skyDop_in_range_witness :
    ∃ d, SkyModelR.dop ⟨⟨0, 0⟩⟩ ⟨0, 0⟩ = some d ∧
      0 ≤ d.inner ∧ d.inner ≤ 1 :=
  skyDop_in_range ⟨⟨0, 0⟩⟩ ⟨0, 0⟩ le_rfl

end Rumpus
